import Mathlib

/-!
Verification development for the yt-transcribe repository.

The definitions below are a shallow embedding of the Python source:
pure functions become Lean functions, the effectful steps of the
single-item pipeline become explicit outcome parameters, and the
filesystem touched by the completion ledger becomes explicit data.
Machine strings are Lean strings; Python sets become Finsets.
-/

namespace YtTranscribe

/-! ## Naming / sanitization (output.py, sanitize) -/

/-- Membership in the regex class [a-z0-9]: codepoints 97..122 or 48..57. -/
def lowerAlnum (c : Char) : Bool :=
  (97 ≤ c.toNat && c.toNat ≤ 122) || (48 ≤ c.toNat && c.toNat ≤ 57)

/-- One step of re.sub applied pointwise: a character outside [a-z0-9]
becomes an underscore, others are kept. -/
def replChar (c : Char) : Char :=
  if lowerAlnum c then c else '_'

/-- Collapse every run of consecutive underscores to a single underscore,
modelling re.sub applied to runs of underscores. -/
def collapseRuns : List Char → List Char
  | [] => []
  | [c] => [c]
  | a :: b :: rest =>
    if a = '_' && b = '_' then collapseRuns (b :: rest)
    else a :: collapseRuns (b :: rest)

/-- Python str.strip with a character predicate: drop matching characters
from both ends of the list. -/
def pyStrip (p : Char → Bool) (l : List Char) : List Char :=
  ((l.dropWhile p).reverse.dropWhile p).reverse

/-- The underscore predicate used by the final strip in sanitize. -/
def isUnd (c : Char) : Bool := c = '_'

/-- Embedding of output.sanitize: lowercase, map every character outside
[a-z0-9] to an underscore, collapse underscore runs, strip edge
underscores. -/
def sanitize (name : String) : String :=
  String.mk (pyStrip isUnd (collapseRuns
    (List.map replChar (List.map Char.toLower name.toList))))

/-- Collapse of underscore runs written independently from the words of
the specification, as a right fold that refuses to put an underscore in
front of another underscore. For comparing the source embedding with the
specified behavior. -/
def collapseRunsSpec (l : List Char) : List Char :=
  l.foldr (fun c acc =>
    if c = '_' && (acc.head?.map isUnd).getD false then acc else c :: acc) []

/-- The sanitize pipeline as the specification words it: lowercasing,
replacing every character outside [a-z0-9] with an underscore, collapsing
runs, stripping edge underscores. Uses the independently written run
collapse. -/
def sanitizeAsSpecified (name : String) : String :=
  String.mk (pyStrip isUnd (collapseRunsSpec
    (List.map replChar (List.map Char.toLower name.toList))))

/-! ### Helper lemmas about the sanitize pipeline -/

/-- Adjacent characters are not both underscores. -/
def noDD (a b : Char) : Prop := ¬(a = '_' ∧ b = '_')

theorem replChar_ok (c : Char) : lowerAlnum (replChar c) = true ∨ replChar c = '_' := by
  unfold replChar
  split
  · left; assumption
  · right; rfl

theorem toLower_fix (c : Char) (h : lowerAlnum c = true ∨ c = '_') :
    c.toLower = c := by
  rcases h with h | h
  · simp only [lowerAlnum, Bool.or_eq_true, Bool.and_eq_true, decide_eq_true_eq] at h
    simp only [Char.toLower]
    rw [if_neg]
    simp only [Char.toNat] at h ⊢
    omega
  · subst h; decide

theorem replChar_fix (c : Char) (h : lowerAlnum c = true ∨ c = '_') :
    replChar c = c := by
  unfold replChar
  rcases h with h | h
  · rw [if_pos h]
  · subst h; rfl

theorem collapseRuns_sublist : ∀ l : List Char, List.Sublist (collapseRuns l) l := by
  intro l
  induction l with
  | nil => exact List.Sublist.refl _
  | cons a t ih =>
    cases t with
    | nil => exact List.Sublist.refl _
    | cons b rest =>
      simp only [collapseRuns]
      split
      · exact List.Sublist.cons a ih
      · exact List.Sublist.cons₂ a ih

theorem collapseRuns_head (b : Char) (rest : List Char) :
    (collapseRuns (b :: rest)).head? = some b := by
  induction rest generalizing b with
  | nil => rfl
  | cons r rs ih =>
    simp only [collapseRuns]
    split
    · next h =>
      simp only [Bool.and_eq_true, decide_eq_true_eq] at h
      rw [ih r, h.1, h.2]
    · rfl

theorem collapseRuns_chain (l : List Char) : List.Chain' noDD (collapseRuns l) := by
  induction l with
  | nil => simp [collapseRuns]
  | cons a t ih =>
    cases t with
    | nil => simp [collapseRuns]
    | cons b rest =>
      simp only [collapseRuns]
      split
      · exact ih
      · next h =>
        rw [List.chain'_cons']
        refine ⟨?_, ih⟩
        intro y hy
        rw [collapseRuns_head b rest] at hy
        simp only [Option.mem_def, Option.some.injEq] at hy
        subst hy
        simp only [Bool.and_eq_true, decide_eq_true_eq] at h
        exact fun hc => h ⟨hc.1, hc.2⟩

theorem collapseRuns_eq_self (l : List Char) (h : List.Chain' noDD l) :
    collapseRuns l = l := by
  induction l with
  | nil => rfl
  | cons a t ih =>
    cases t with
    | nil => rfl
    | cons b rest =>
      have hab : noDD a b := (List.chain'_cons.mp h).1
      simp only [collapseRuns]
      rw [if_neg (by simp only [Bool.and_eq_true, decide_eq_true_eq]; exact hab),
        ih (List.Chain'.tail h)]

theorem chain'_dropWhile {R : Char → Char → Prop} (p : Char → Bool)
    (l : List Char) (h : List.Chain' R l) : List.Chain' R (l.dropWhile p) := by
  induction l with
  | nil => exact h
  | cons a t ih =>
    rw [List.dropWhile_cons]
    split
    · exact ih (List.Chain'.tail h)
    · exact h

theorem noDD_flip {a b : Char} (h : noDD a b) : flip noDD a b :=
  fun hc => h ⟨hc.2, hc.1⟩

theorem pyStrip_chain (p : Char → Bool) (l : List Char)
    (h : List.Chain' noDD l) : List.Chain' noDD (pyStrip p l) := by
  unfold pyStrip
  rw [List.chain'_reverse]
  apply List.Chain'.imp (fun a b hab => noDD_flip hab)
  apply chain'_dropWhile
  rw [List.chain'_reverse]
  apply List.Chain'.imp (fun a b hab => noDD_flip hab)
  exact chain'_dropWhile p l h

theorem pyStrip_subset (p : Char → Bool) (l : List Char) :
    ∀ c ∈ pyStrip p l, c ∈ l := by
  intro c hc
  unfold pyStrip at hc
  rw [List.mem_reverse] at hc
  have h1 := (List.dropWhile_sublist p).subset hc
  rw [List.mem_reverse] at h1
  exact (List.dropWhile_sublist p).subset h1

theorem head_dropWhile_false (p : Char → Bool) (l : List Char) (a : Char)
    (h : (l.dropWhile p).head? = some a) : p a = false := by
  induction l with
  | nil => simp at h
  | cons x xs ih =>
    rw [List.dropWhile_cons] at h
    by_cases hx : p x = true
    · rw [if_pos hx] at h
      exact ih h
    · rw [if_neg hx] at h
      simp only [List.head?_cons, Option.some.injEq] at h
      subst h
      simpa using hx

theorem getLast_dropWhile (p : Char → Bool) :
    ∀ l : List Char, l.dropWhile p = [] ∨ (l.dropWhile p).getLast? = l.getLast? := by
  intro l
  induction l with
  | nil => left; rfl
  | cons a t ih =>
    rw [List.dropWhile_cons]
    by_cases ha : p a = true
    · rw [if_pos ha]
      rcases ih with ih | ih
      · left; exact ih
      · cases t with
        | nil => left; rfl
        | cons b rest =>
          right
          rw [ih, List.getLast?_cons_cons]
    · rw [if_neg ha]
      right; rfl

theorem head_pyStrip_false (p : Char → Bool) (l : List Char) (a : Char)
    (h : (pyStrip p l).head? = some a) : p a = false := by
  unfold pyStrip at h
  rw [List.head?_reverse] at h
  rcases getLast_dropWhile p (l.dropWhile p).reverse with hd | hd
  · rw [hd] at h; simp at h
  · rw [hd, List.getLast?_reverse] at h
    exact head_dropWhile_false p l a h

theorem getLast_pyStrip_false (p : Char → Bool) (l : List Char) (a : Char)
    (h : (pyStrip p l).getLast? = some a) : p a = false := by
  unfold pyStrip at h
  rw [List.getLast?_reverse] at h
  exact head_dropWhile_false p (l.dropWhile p).reverse a h

theorem dropWhile_eq_self_head (p : Char → Bool) (l : List Char)
    (h : ∀ a, l.head? = some a → p a = false) : l.dropWhile p = l := by
  cases l with
  | nil => rfl
  | cons a t =>
    rw [List.dropWhile_cons_of_neg]
    simp [h a rfl]

theorem pyStrip_eq_self (p : Char → Bool) (l : List Char)
    (hh : ∀ a, l.head? = some a → p a = false)
    (hl : ∀ a, l.getLast? = some a → p a = false) : pyStrip p l = l := by
  unfold pyStrip
  rw [dropWhile_eq_self_head p l hh]
  rw [dropWhile_eq_self_head p l.reverse (by intro a ha; rw [List.head?_reverse] at ha; exact hl a ha)]
  exact List.reverse_reverse l

theorem map_fix (f : Char → Char) :
    ∀ l : List Char, (∀ c ∈ l, f c = c) → l.map f = l := by
  intro l h
  induction l with
  | nil => rfl
  | cons a t ih =>
    simp only [List.map_cons]
    rw [h a (List.mem_cons_self a t), ih (fun c hc => h c (List.mem_cons_of_mem a hc))]

theorem sanL_class (x : String) (c : Char)
    (hc : c ∈ (sanitize x).toList) : lowerAlnum c = true ∨ c = '_' := by
  unfold sanitize at hc
  have h1 := pyStrip_subset isUnd _ c hc
  have h2 := (collapseRuns_sublist _).subset h1
  rw [List.mem_map] at h2
  obtain ⟨d, _, hd⟩ := h2
  rw [← hd]
  exact replChar_ok d

theorem collapseRunsSpec_eq (l : List Char) : collapseRunsSpec l = collapseRuns l := by
  induction l with
  | nil => rfl
  | cons a t ih =>
    cases t with
    | nil =>
      simp [collapseRunsSpec, collapseRuns]
    | cons b rest =>
      have step : collapseRunsSpec (a :: b :: rest) =
          (if a = '_' && (((collapseRunsSpec (b :: rest)).head?.map isUnd).getD false)
           then collapseRunsSpec (b :: rest) else a :: collapseRunsSpec (b :: rest)) := rfl
      rw [step, ih, collapseRuns_head b rest]
      simp only [collapseRuns, Option.map_some, Option.getD_some, isUnd]
      rfl

/-- C8: sanitize matches the specified pipeline (lowercase, map characters
outside the class a-z0-9 to underscores, collapse runs, strip edges) for
every input, and agrees with the concrete examples of the specification,
returning the empty string rather than any fallback token on all-symbol
input. -/
theorem spec_c8_sanitize_contract :
    (∀ x : String, sanitize x = sanitizeAsSpecified x) ∧
    sanitize "Hello World" = "hello_world" ∧
    sanitize "Test! @#$% Video" = "test_video" ∧
    sanitize "a---b___c" = "a_b_c" ∧
    sanitize "___hello___" = "hello" ∧
    sanitize "!!!" = "" ∧
    sanitize "" = "" := by
  refine ⟨?_, by decide, by decide, by decide, by decide, by decide, by decide⟩
  intro x
  unfold sanitize sanitizeAsSpecified
  rw [collapseRunsSpec_eq]

/-- C9: sanitize is idempotent, applying it twice gives the same token as
applying it once, for every input string. -/
theorem spec_c9_sanitize_idempotent (x : String) :
    sanitize (sanitize x) = sanitize x := by
  have hclass := sanL_class x
  conv_lhs => rw [sanitize]
  have hm : (sanitize x).toList.map Char.toLower = (sanitize x).toList :=
    map_fix _ _ (fun c hc => toLower_fix c (hclass c hc))
  rw [hm]
  have hr : (sanitize x).toList.map replChar = (sanitize x).toList :=
    map_fix _ _ (fun c hc => replChar_fix c (hclass c hc))
  rw [hr]
  have hchain : List.Chain' noDD (sanitize x).toList := by
    rw [sanitize]
    exact pyStrip_chain isUnd _ (collapseRuns_chain _)
  rw [collapseRuns_eq_self _ hchain]
  rw [pyStrip_eq_self isUnd _
    (fun a ha => head_pyStrip_false isUnd _ a (by rw [sanitize] at ha; exact ha))
    (fun a ha => getLast_pyStrip_false isUnd _ a (by rw [sanitize] at ha; exact ha))]
  rfl

/-! ## Per-item results (transcriber.py, TranscribeResult) -/

/-- Embedding of the TranscribeResult dataclass. -/
structure TranscribeResult where
  success : Bool
  video_id : String := ""
  title : String := ""
  error : String := ""
deriving DecidableEq

/-! ## Batch planning and dispatch (channel.py, run_channel_mode) -/

/-- Embedding of the pending computation of run_channel_mode: keep, in
discovery order, the discovered ids not found in the completion ledger
set. -/
def pending_ids (all_ids : List String) (done_ids : Finset String) : List String :=
  all_ids.filter (fun vid => decide (vid ∉ done_ids))

/-- Embedding of the amount cap of run_channel_mode: the batch size is the
pending count, lowered to amount when amount is positive and exceeded. -/
def process_count (pending : List String) (amount : Nat) : Nat :=
  if 0 < amount ∧ amount < pending.length then amount else pending.length

/-- The planned batch of run_channel_mode: the first process_count pending
ids in discovery order. -/
def to_process (pending : List String) (amount : Nat) : List String :=
  pending.take (process_count pending amount)

/-- Embedding of the sequential dispatch loop: one result per id, in
order. The function proc models transcribe_single applied to the watch
url of an id; it is total because transcribe_single never raises. -/
def run_sequential (video_ids : List String) (proc : String → TranscribeResult) :
    List TranscribeResult :=
  video_ids.map proc

/-- Embedding of the parallel dispatch loop: every id is submitted and the
results are appended in completion order. The completion order is passed
as the list completed, constrained in the theorems to be a permutation of
the dispatched ids. -/
def run_parallel (completed : List String) (proc : String → TranscribeResult) :
    List TranscribeResult :=
  completed.map proc

/-- Embedding of the decision structure of run_channel_mode after
discovery: empty discovery and empty pending lists return an empty batch
immediately, otherwise the planned batch is dispatched sequentially when
workers is at most one and in parallel otherwise. -/
def run_channel_mode (all_ids : List String) (done_ids : Finset String)
    (amount workers : Nat) (proc : String → TranscribeResult)
    (completed : List String) : List TranscribeResult :=
  if all_ids = [] then []
  else
    if pending_ids all_ids done_ids = [] then []
    else
      if workers ≤ 1 then
        run_sequential (to_process (pending_ids all_ids done_ids) amount) proc
      else run_parallel completed proc

theorem pending_length_aux (C : Finset String) :
    ∀ D : List String, D.Nodup →
      (pending_ids D C).length + (D.toFinset ∩ C).card = D.length := by
  intro D
  induction D with
  | nil => intro _; simp [pending_ids]
  | cons a t ih =>
    intro hD
    rw [List.nodup_cons] at hD
    obtain ⟨ha, ht⟩ := hD
    have hat : a ∉ t.toFinset := by simpa using ha
    have iht := ih ht
    simp only [pending_ids, List.filter_cons, List.toFinset_cons, List.length_cons] at iht ⊢
    by_cases hc : a ∈ C
    · rw [if_neg (by simp [hc]), Finset.insert_inter_of_mem hc,
        Finset.card_insert_of_not_mem (by simp [hat])]
      omega
    · rw [if_pos (by simp [hc]), Finset.insert_inter_of_not_mem hc]
      simp only [List.length_cons]
      omega

/-- C2: the pending list is the discovered list filtered by the ledger
set, in discovery order, and when discovery has no duplicates the pending
length plus the size of the intersection of the ledger with the discovery
set equals the discovery length. -/
theorem spec_c2_pending (D : List String) (C : Finset String) (hD : D.Nodup) :
    List.Sublist (pending_ids D C) D ∧
    (∀ v, v ∈ pending_ids D C ↔ v ∈ D ∧ v ∉ C) ∧
    (pending_ids D C).length + (D.toFinset ∩ C).card = D.length := by
  refine ⟨List.filter_sublist D, ?_, pending_length_aux C D hD⟩
  intro v
  simp [pending_ids]

/-- Closed instance of the C2 theorem at a concrete discovery list and
ledger set. -/
theorem spec_c2_pending_witness :
    List.Sublist (pending_ids ["a", "b"] {"b"}) ["a", "b"] ∧
    (∀ v, v ∈ pending_ids ["a", "b"] {"b"} ↔
      v ∈ ["a", "b"] ∧ v ∉ ({"b"} : Finset String)) ∧
    (pending_ids ["a", "b"] {"b"}).length +
      ((["a", "b"] : List String).toFinset ∩ {"b"}).card =
      (["a", "b"] : List String).length :=
  spec_c2_pending ["a", "b"] {"b"} (by decide)

/-- C3: a positive cap smaller than the pending count keeps exactly the
first cap pending ids; a zero cap or a pending list that fits keeps the
whole pending list. -/
theorem spec_c3_cap (pending : List String) (amount : Nat) :
    (0 < amount → amount < pending.length →
      to_process pending amount = pending.take amount) ∧
    ((amount = 0 ∨ pending.length ≤ amount) →
      to_process pending amount = pending) := by
  constructor
  · intro h1 h2
    unfold to_process process_count
    rw [if_pos ⟨h1, h2⟩]
  · intro h
    unfold to_process process_count
    rw [if_neg (by rcases h with h | h <;> omega), List.take_length]

/-- Closed instance of the C3 theorem: a cap of two on three pending ids
keeps the first two, and a cap of zero keeps all three. -/
theorem spec_c3_cap_witness :
    to_process ["a", "b", "c"] 2 = ["a", "b"] ∧
    to_process ["a", "b", "c"] 0 = ["a", "b", "c"] :=
  ⟨((spec_c3_cap ["a", "b", "c"] 2).1 (by decide) (by decide)).trans (by decide),
   (spec_c3_cap ["a", "b", "c"] 0).2 (Or.inl rfl)⟩

/-- C4: the orchestrator returns an empty batch immediately on empty
discovery or empty pending, one result per planned item in discovery
order when workers is at most one, results in completion order forming a
permutation of the per-item results when workers exceeds one, and the
returned length is the planned length for every proc, including a proc
failing every item; it never raises because it is a total function. -/
theorem spec_c4_batch (all_ids : List String) (done_ids : Finset String)
    (amount workers : Nat) (proc : String → TranscribeResult)
    (completed : List String)
    (hco : completed.Perm (to_process (pending_ids all_ids done_ids) amount)) :
    (all_ids = [] →
      run_channel_mode all_ids done_ids amount workers proc completed = []) ∧
    (pending_ids all_ids done_ids = [] →
      run_channel_mode all_ids done_ids amount workers proc completed = []) ∧
    (workers ≤ 1 → all_ids ≠ [] → pending_ids all_ids done_ids ≠ [] →
      run_channel_mode all_ids done_ids amount workers proc completed =
        (to_process (pending_ids all_ids done_ids) amount).map proc) ∧
    (1 < workers → all_ids ≠ [] → pending_ids all_ids done_ids ≠ [] →
      run_channel_mode all_ids done_ids amount workers proc completed =
        completed.map proc ∧
      (run_channel_mode all_ids done_ids amount workers proc completed).Perm
        ((to_process (pending_ids all_ids done_ids) amount).map proc)) ∧
    (run_channel_mode all_ids done_ids amount workers proc completed).length =
      (if all_ids = [] ∨ pending_ids all_ids done_ids = [] then 0
       else (to_process (pending_ids all_ids done_ids) amount).length) := by
  refine ⟨?_, ?_, ?_, ?_, ?_⟩
  · intro h; simp [run_channel_mode, h]
  · intro h
    by_cases h1 : all_ids = [] <;> simp [run_channel_mode, h, h1]
  · intro hw h1 h2
    simp [run_channel_mode, h1, h2, hw, run_sequential]
  · intro hw h1 h2
    have hn : ¬ workers ≤ 1 := by omega
    have he : run_channel_mode all_ids done_ids amount workers proc completed =
        completed.map proc := by
      simp [run_channel_mode, h1, h2, hn, run_parallel]
    exact ⟨he, he ▸ hco.map proc⟩
  · by_cases h1 : all_ids = [] <;> by_cases h2 : pending_ids all_ids done_ids = [] <;>
      by_cases h3 : workers ≤ 1 <;>
      simp [run_channel_mode, h1, h2, h3, run_sequential, run_parallel, hco.length_eq]

/-- Closed instance of the C4 theorem: a parallel run over three
discovered ids with one already done and an all-failing proc still
returns exactly one result per planned item, in completion order. -/
theorem spec_c4_batch_witness :
    run_channel_mode ["a", "b", "c"] {"b"} 0 2
      (fun v => ⟨false, v, "", "boom"⟩) ["c", "a"] =
      [⟨false, "c", "", "boom"⟩, ⟨false, "a", "", "boom"⟩] :=
  (((spec_c4_batch ["a", "b", "c"] {"b"} 0 2
      (fun v => ⟨false, v, "", "boom"⟩) ["c", "a"] (by decide)).2.2.2.1
    (by decide) (by decide) (by decide)).1).trans (by decide)

/-! ## Sidecar records (output.py, VideoMeta and VideoOutputDir.write_info) -/

/-- Embedding of the VideoMeta dataclass. -/
structure VideoMeta where
  title : String
  id : String
  channel : String
  url : String
deriving DecidableEq

/-- A yaml scalar value as written to or parsed from an info.yaml
sidecar. -/
inductive YamlVal where
  | ynull : YamlVal
  | ystr : String → YamlVal
  | yint : Int → YamlVal
  | ybool : Bool → YamlVal
deriving DecidableEq

/-- The Python str coercion on a yaml scalar: the None object prints as
the word None, booleans capitalized, integers in decimal, strings
unchanged. -/
def pyStr : YamlVal → String
  | .ynull => "None"
  | .ystr s => s
  | .yint n => toString n
  | .ybool true => "True"
  | .ybool false => "False"

/-- Embedding of VideoOutputDir.write_info: the document written to the
info.yaml sidecar as an ordered key-value list; the word_count and
transcribed_at keys are present exactly when the arguments are. -/
def write_info (meta : VideoMeta) (word_count : Option Nat)
    (transcribed_at : Option String) : List (String × YamlVal) :=
  [("title", .ystr meta.title), ("id", .ystr meta.id),
   ("channel", .ystr meta.channel), ("url", .ystr meta.url)] ++
  (match word_count with
   | some n => [("word_count", .yint n)]
   | none => []) ++
  (match transcribed_at with
   | some t => [("transcribed_at", .ystr t)]
   | none => [])

/-- A UTC instant at second precision, as consumed by the strftime call
of transcribe_single. -/
structure UtcTime where
  year : Nat
  month : Nat
  day : Nat
  hour : Nat
  minute : Nat
  second : Nat
deriving DecidableEq

/-- Zero padding to two decimal digits, as strftime produces for month,
day, hour, minute and second; the two low decimal digits, which is the
zero-padded decimal form for every value below one hundred, and all
calendar field values are. -/
def pad2 (n : Nat) : String :=
  String.mk [Nat.digitChar (n / 10 % 10), Nat.digitChar (n % 10)]

/-- Zero padding to four decimal digits, as strftime produces for the
year; datetime years stay below ten thousand. -/
def pad4 (n : Nat) : String :=
  String.mk [Nat.digitChar (n / 1000 % 10), Nat.digitChar (n / 100 % 10),
    Nat.digitChar (n / 10 % 10), Nat.digitChar (n % 10)]

/-- Embedding of the strftime pattern transcribe_single uses for the
transcribed_at field: date and time fields joined by the ISO-8601
separators, ending in the letter Z. -/
def format_timestamp (t : UtcTime) : String :=
  pad4 t.year ++ "-" ++ pad2 t.month ++ "-" ++ pad2 t.day ++ "T" ++
  pad2 t.hour ++ ":" ++ pad2 t.minute ++ ":" ++ pad2 t.second ++ "Z"

/-! ## Single-item pipeline (transcriber.py, transcribe_single) -/

/-- Embedding of the VideoInfo dataclass of downloader.py. -/
structure VideoInfo where
  title : String
  id : String
  channel : String
  url : String
deriving DecidableEq

/-- Embedding of whisper.TranscriptionResult restricted to the field the
pipeline consumes for the final sidecar. -/
structure TranscriptionOutcome where
  word_count : Nat
deriving DecidableEq

/-- The outcomes of the effectful steps of transcribe_single, passed as
data: an error value models the step raising that exception, making the
pipeline a total function of the outcomes. The transcribe field covers
both the WhisperError branch and the generic branch of the source, which
build the same result shape. -/
structure PipelineEnv where
  fetch_video_info : Except String VideoInfo
  make_output_dir : Except String Unit
  write_provisional : Except String Unit
  download_audio : Except String String
  transcribe : Except String TranscriptionOutcome
  write_final : Except String Unit
  cleanup_audio : Except String Unit
  now : UtcTime

/-- What one run of the single-item pipeline produced: the returned
result, whether the output directory was created, and the sidecar
documents written, in order. -/
structure PipelineTrace where
  result : TranscribeResult
  dir_created : Bool
  writes : List (List (String × YamlVal))
deriving DecidableEq

/-- Embedding of transcribe_single: fetch metadata, create the output
directory, write the provisional sidecar, download audio, transcribe,
rewrite the sidecar as final, then delete the audio unless kept. The
first failing step short-circuits into a failure result whose id and
title come from the fetched metadata; a failed fetch leaves them empty
and creates no directory. -/
def transcribe_single (env : PipelineEnv) (keep_audio : Bool) : PipelineTrace :=
  match env.fetch_video_info with
  | .error e => ⟨{ success := false, error := e }, false, []⟩
  | .ok info =>
    let meta : VideoMeta := ⟨info.title, info.id, info.channel, info.url⟩
    let fail := fun (e : String) (created : Bool)
        (ws : List (List (String × YamlVal))) =>
      (⟨{ success := false, video_id := info.id, title := info.title,
          error := e }, created, ws⟩ : PipelineTrace)
    match env.make_output_dir with
    | .error e => fail e false []
    | .ok _ =>
      match env.write_provisional with
      | .error e => fail e true []
      | .ok _ =>
        let prov := write_info meta none none
        match env.download_audio with
        | .error e => fail e true [prov]
        | .ok _ =>
          match env.transcribe with
          | .error e => fail e true [prov]
          | .ok tr =>
            match env.write_final with
            | .error e => fail e true [prov]
            | .ok _ =>
              let fin := write_info meta (some tr.word_count)
                (some (format_timestamp env.now))
              if keep_audio then
                ⟨{ success := true, video_id := info.id, title := info.title },
                  true, [prov, fin]⟩
              else
                match env.cleanup_audio with
                | .error e => fail e true [prov, fin]
                | .ok _ =>
                  ⟨{ success := true, video_id := info.id, title := info.title },
                    true, [prov, fin]⟩

/-- Whether an effectful step outcome is a success. -/
def stepOk {α : Type} : Except String α → Bool
  | .ok _ => true
  | .error _ => false

/-- Whether some step after the metadata fetch fails; cleanup is only a
step when the audio is not kept. -/
def any_step_fails (env : PipelineEnv) (keep_audio : Bool) : Bool :=
  !(stepOk env.make_output_dir && stepOk env.write_provisional &&
    stepOk env.download_audio && stepOk env.transcribe &&
    stepOk env.write_final && (keep_audio || stepOk env.cleanup_audio))

/-- C1: transcribe_single is a total function of the step outcomes, so no
exception reaches the caller; a failed metadata fetch returns a failure
result with empty id and title, empty writes and no directory created;
after a successful fetch the result always carries the fetched id and
title, failure of any later step gives a failure result, and the run
succeeds exactly when every step does. -/
theorem spec_c1_pipeline (env : PipelineEnv) (keep_audio : Bool) :
    (∀ e, env.fetch_video_info = .error e →
      transcribe_single env keep_audio =
        ⟨{ success := false, error := e }, false, []⟩) ∧
    (∀ info, env.fetch_video_info = .ok info →
      (transcribe_single env keep_audio).result.video_id = info.id ∧
      (transcribe_single env keep_audio).result.title = info.title ∧
      (any_step_fails env keep_audio = true →
        (transcribe_single env keep_audio).result.success = false) ∧
      (any_step_fails env keep_audio = false →
        (transcribe_single env keep_audio).result.success = true)) := by
  obtain ⟨f, mk, pw, dl, tr, wf, cl, now⟩ := env
  constructor
  · intro e he
    simp only at he
    simp [transcribe_single, he]
  · intro info hi
    simp only at hi
    subst hi
    cases mk <;> cases pw <;> cases dl <;> cases tr <;> cases wf <;> cases cl <;>
      cases keep_audio <;>
      simp [transcribe_single, any_step_fails, stepOk]

/-- Closed instance of the C1 theorem at a failing metadata fetch. -/
theorem spec_c1_pipeline_witness :
    transcribe_single
      ⟨.error "network down", .ok (), .ok (), .ok "a.mp3", .ok ⟨5⟩, .ok (),
        .ok (), ⟨2026, 1, 2, 3, 4, 5⟩⟩ true =
      ⟨{ success := false, error := "network down" }, false, []⟩ :=
  (spec_c1_pipeline _ true).1 "network down" rfl

theorem pad2_length (n : Nat) : (pad2 n).length = 2 := rfl

theorem pad4_length (n : Nat) : (pad4 n).length = 4 := rfl

theorem format_timestamp_length (t : UtcTime) : (format_timestamp t).length = 20 := by
  simp only [format_timestamp, String.length_append, pad2_length, pad4_length]
  rfl

theorem format_timestamp_last (t : UtcTime) :
    (format_timestamp t).toList.getLast? = some 'Z' := by
  rw [List.getLast?_eq_head?_reverse]
  simp [format_timestamp]

/-- C7: the provisional sidecar holds exactly the four base keys with the
values of the metadata; the final sidecar extends it by exactly the
word_count and transcribed_at entries, leaving the base fields unchanged;
the timestamp string has the twenty-character second-precision shape
ending in Z; and a fully successful pipeline run writes exactly the
provisional document followed by that final document. -/
theorem spec_c7_record_lifecycle (meta : VideoMeta) (wc : Nat) (ts : String)
    (env : PipelineEnv) (keep_audio : Bool) (info : VideoInfo)
    (tr : TranscriptionOutcome)
    (hf : env.fetch_video_info = .ok info)
    (htr : env.transcribe = .ok tr)
    (hok : any_step_fails env keep_audio = false) :
    (write_info meta none none).map Prod.fst =
      ["title", "id", "channel", "url"] ∧
    write_info meta none none =
      [("title", .ystr meta.title), ("id", .ystr meta.id),
       ("channel", .ystr meta.channel), ("url", .ystr meta.url)] ∧
    write_info meta (some wc) (some ts) =
      write_info meta none none ++
        [("word_count", .yint wc), ("transcribed_at", .ystr ts)] ∧
    (format_timestamp env.now).length = 20 ∧
    (format_timestamp env.now).toList.getLast? = some 'Z' ∧
    (transcribe_single env keep_audio).writes =
      [write_info ⟨info.title, info.id, info.channel, info.url⟩ none none,
       write_info ⟨info.title, info.id, info.channel, info.url⟩
         (some tr.word_count) (some (format_timestamp env.now))] := by
  refine ⟨rfl, rfl, rfl, format_timestamp_length env.now, format_timestamp_last env.now, ?_⟩
  obtain ⟨f, mk, pw, dl, trE, wf, cl, now⟩ := env
  simp only at hf htr hok ⊢
  subst hf
  subst htr
  cases mk <;> cases pw <;> cases dl <;> cases wf <;> cases cl <;>
    cases keep_audio <;>
    simp_all [transcribe_single, any_step_fails, stepOk]

/-- Closed instance of the C7 theorem at a concrete metadata record and a
fully successful environment. -/
theorem spec_c7_record_lifecycle_witness :
    (write_info ⟨"T", "x", "C", "u"⟩ none none).map Prod.fst =
      ["title", "id", "channel", "url"] ∧
    write_info ⟨"T", "x", "C", "u"⟩ none none =
      [("title", .ystr "T"), ("id", .ystr "x"),
       ("channel", .ystr "C"), ("url", .ystr "u")] ∧
    write_info ⟨"T", "x", "C", "u"⟩ (some 7) (some "2026-01-02T03:04:05Z") =
      write_info ⟨"T", "x", "C", "u"⟩ none none ++
        [("word_count", .yint 7), ("transcribed_at", .ystr "2026-01-02T03:04:05Z")] ∧
    (format_timestamp ⟨2026, 1, 2, 3, 4, 5⟩).length = 20 ∧
    (format_timestamp ⟨2026, 1, 2, 3, 4, 5⟩).toList.getLast? = some 'Z' ∧
    (transcribe_single
      ⟨.ok ⟨"T", "x", "C", "u"⟩, .ok (), .ok (), .ok "a.mp3", .ok ⟨7⟩, .ok (),
        .ok (), ⟨2026, 1, 2, 3, 4, 5⟩⟩ false).writes =
      [write_info ⟨"T", "x", "C", "u"⟩ none none,
       write_info ⟨"T", "x", "C", "u"⟩ (some 7)
         (some (format_timestamp ⟨2026, 1, 2, 3, 4, 5⟩))] :=
  spec_c7_record_lifecycle ⟨"T", "x", "C", "u"⟩ 7 "2026-01-02T03:04:05Z"
    ⟨.ok ⟨"T", "x", "C", "u"⟩, .ok (), .ok (), .ok "a.mp3", .ok ⟨7⟩, .ok (),
      .ok (), ⟨2026, 1, 2, 3, 4, 5⟩⟩ false ⟨"T", "x", "C", "u"⟩ ⟨7⟩ rfl rfl rfl

/-! ## Completion ledger scanner (output.py, get_transcribed_ids) -/

/-- Parse outcome of one info.yaml sidecar found by the recursive walk:
reading or parsing may raise, the document may be something other than a
dict, or it is a dict given as ordered key-value pairs. -/
inductive YamlSidecar where
  | unreadable : YamlSidecar
  | notDict : YamlSidecar
  | dict : List (String × YamlVal) → YamlSidecar
deriving DecidableEq

/-- One info.txt sidecar: none models a file whose read raises, otherwise
the lines of its text. -/
abbrev TxtSidecar := Option (List String)

/-- The sidecar files the recursive walk finds under an existing root:
every info.yaml and every info.txt, in walk order. -/
structure LedgerTree where
  yamlFiles : List YamlSidecar
  txtFiles : List TxtSidecar

/-- Python str.strip whitespace class: space, tab, line feed, carriage
return, vertical tab, form feed. -/
def isPySpace (c : Char) : Bool :=
  c.toNat = 32 || c.toNat = 9 || c.toNat = 10 || c.toNat = 13 ||
  c.toNat = 11 || c.toNat = 12

/-- The double-quote character, by code point. -/
def isDQuote (c : Char) : Bool := c.toNat = 34

/-- Character-level model of the startswith check for the legacy id
line. -/
def startswith_id (line : String) : Bool :=
  decide (line.toList.take 4 = ("id: ").toList)

/-- Embedding of the legacy value parse: the rest of the line past the
four-character id marker, whitespace-stripped then quote-stripped. -/
def legacy_line_id (line : String) : List Char :=
  pyStrip isDQuote (pyStrip isPySpace (line.toList.drop 4))

/-- Embedding of get_transcribed_ids: an absent root yields the empty
set; otherwise every info.yaml that parses to a dict with an id key adds
the str coercion of that value, then every readable info.txt adds, for
each line starting with the id marker, the stripped value when nonempty;
sidecars whose read or parse raised are skipped. -/
def get_transcribed_ids (root : Option LedgerTree) : Finset String :=
  match root with
  | none => ∅
  | some t =>
    let ids1 := t.yamlFiles.foldl (fun ids f =>
      match f with
      | .dict d =>
        match d.lookup "id" with
        | some v => insert (pyStr v) ids
        | none => ids
      | _ => ids) ∅
    t.txtFiles.foldl (fun ids f =>
      match f with
      | some lines => lines.foldl (fun ids line =>
          if startswith_id line then
            if legacy_line_id line = [] then ids
            else insert (String.mk (legacy_line_id line)) ids
          else ids) ids
      | none => ids) ids1

/-- The ids one structured sidecar contributes on its own. -/
def yaml_file_ids : YamlSidecar → Finset String
  | .dict d =>
    match d.lookup "id" with
    | some v => {pyStr v}
    | none => ∅
  | _ => ∅

/-- The ids one legacy line contributes on its own. -/
def txt_line_ids (line : String) : Finset String :=
  if startswith_id line then
    if legacy_line_id line = [] then ∅
    else {String.mk (legacy_line_id line)}
  else ∅

/-- Union of a list of finite id sets. -/
def fold_union (s : List (Finset String)) : Finset String :=
  s.foldr (fun a b => a ∪ b) ∅

/-- The ids one legacy sidecar contributes on its own. -/
def txt_file_ids : TxtSidecar → Finset String
  | none => ∅
  | some lines => fold_union (lines.map txt_line_ids)

theorem foldl_union_eq {β : Type} (g : β → Finset String)
    (step : Finset String → β → Finset String)
    (hstep : ∀ ids b, step ids b = ids ∪ g b) :
    ∀ (l : List β) (acc : Finset String),
      l.foldl step acc = acc ∪ fold_union (l.map g) := by
  intro l
  induction l with
  | nil => intro acc; simp [fold_union]
  | cons b t ih =>
    intro acc
    simp only [List.foldl_cons, List.map_cons, fold_union, List.foldr_cons]
    rw [hstep, ih]
    simp only [fold_union]
    rw [Finset.union_assoc, Finset.union_comm (g b)]

theorem insert_eq_union_right (x : String) (s : Finset String) :
    insert x s = s ∪ {x} := by
  rw [Finset.union_comm, ← Finset.insert_eq]

/-- C6: the scan of an absent root is empty, the scan of an existing root
is the union of the ids contributed by each structured and each legacy
sidecar independently, and a sidecar whose read or parse raised, or whose
document is not a dict, contributes nothing, so it cannot suppress the
ids of the other sidecars. -/
theorem spec_c6_ledger_scan :
    get_transcribed_ids none = ∅ ∧
    (∀ t : LedgerTree,
      get_transcribed_ids (some t) =
        fold_union (t.yamlFiles.map yaml_file_ids) ∪
        fold_union (t.txtFiles.map txt_file_ids)) ∧
    yaml_file_ids .unreadable = ∅ ∧
    yaml_file_ids .notDict = ∅ ∧
    txt_file_ids none = ∅ := by
  refine ⟨rfl, ?_, rfl, rfl, rfl⟩
  intro t
  have hyaml : ∀ (ids : Finset String) (f : YamlSidecar),
      (match f with
        | .dict d =>
          match d.lookup "id" with
          | some v => insert (pyStr v) ids
          | none => ids
        | _ => ids) = ids ∪ yaml_file_ids f := by
    intro ids f
    cases f with
    | dict d =>
      simp only [yaml_file_ids]
      rcases hl : List.lookup "id" d with _ | v <;>
        simp [hl, insert_eq_union_right]
    | unreadable => simp [yaml_file_ids]
    | notDict => simp [yaml_file_ids]
  have hline : ∀ (ids : Finset String) (line : String),
      (if startswith_id line then
        if legacy_line_id line = [] then ids
        else insert (String.mk (legacy_line_id line)) ids
       else ids) = ids ∪ txt_line_ids line := by
    intro ids line
    unfold txt_line_ids
    by_cases h1 : startswith_id line = true
    · rw [if_pos h1, if_pos h1]
      by_cases h2 : legacy_line_id line = []
      · rw [if_pos h2, if_pos h2, Finset.union_empty]
      · rw [if_neg h2, if_neg h2]
        exact insert_eq_union_right _ _
    · rw [if_neg h1, if_neg h1, Finset.union_empty]
  have htxt : ∀ (ids : Finset String) (f : TxtSidecar),
      (match f with
        | some lines => lines.foldl (fun ids line =>
            if startswith_id line then
              if legacy_line_id line = [] then ids
              else insert (String.mk (legacy_line_id line)) ids
            else ids) ids
        | none => ids) = ids ∪ txt_file_ids f := by
    intro ids f
    cases f with
    | none => simp [txt_file_ids]
    | some lines =>
      simp only [txt_file_ids]
      exact foldl_union_eq txt_line_ids _ hline lines ids
  show (t.txtFiles.foldl _ (t.yamlFiles.foldl _ ∅)) = _
  rw [foldl_union_eq yaml_file_ids _ hyaml t.yamlFiles ∅,
    foldl_union_eq txt_file_ids _ htxt t.txtFiles _]
  simp

/-- C10: a structured sidecar with a null id contributes the string None,
one with an empty-string id contributes the empty string, while a legacy
line with an empty quoted id is dropped; a tree mixing all three yields
exactly the two coerced ids. -/
theorem spec_c10_id_coercion :
    yaml_file_ids (.dict [("id", .ynull)]) = {"None"} ∧
    yaml_file_ids (.dict [("id", .ystr "")]) = {""} ∧
    txt_file_ids (some ["id: \"\""]) = ∅ ∧
    get_transcribed_ids (some ⟨[.dict [("id", .ynull)], .dict [("id", .ystr "")]],
      [some ["id: \"\""]]⟩) = {"None", ""} := by
  refine ⟨rfl, rfl, by decide, by decide⟩

/-! ## Two-run idempotence (channel.py, output.py and transcriber.py)

The filesystem below the base output directory is modelled as the list of
existing info.yaml sidecars, each the pair of its directory, a channel
segment and a video segment, and the id it records. This is the part of
the tree both the batch writes and the follow-up scan touch. -/

/-- The channel directory segment: the sanitized channel name, with the
fallback used both by run_channel_mode and VideoOutputDir when the
sanitized name is empty. -/
def channel_dir (channel : String) : String :=
  if sanitize channel = "" then "unknown_channel" else sanitize channel

/-- The video directory segment computed by VideoOutputDir: the sanitized
title, falling back to the sanitized id when empty. -/
def video_dir (meta : VideoMeta) : String :=
  if sanitize meta.title = "" then sanitize meta.id else sanitize meta.title

/-- The output location of an item relative to the base output
directory. -/
def out_key (meta : VideoMeta) : String × String :=
  (channel_dir meta.channel, video_dir meta)

/-- The structured sidecars under the base output directory: one entry
per existing info.yaml, its directory paired with the id it records. -/
abbrev SidecarFS := List ((String × String) × String)

/-- Overwrite the info.yaml at one location, as write_info does when the
directory already holds one. -/
def fs_write (fs : SidecarFS) (k : String × String) (v : String) : SidecarFS :=
  (k, v) :: fs.filter (fun e => decide (e.1 ≠ k))

/-- The get_transcribed_ids scan of a channel root over this filesystem
model: the ids of the sidecars below the channel directory. -/
def ledger_scan (fs : SidecarFS) (ch : String) : List String :=
  (fs.filter (fun e => decide (e.1.1 = ch))).map (fun e => e.2)

/-- The filesystem effect of a fully successful batch: each processed
item writes its metadata id at its output location; the provisional and
the final write of one item hit the same file with the same id, leaving
one entry. -/
def run_batch_writes (fs : SidecarFS) (exec : List String)
    (metaOf : String → VideoMeta) : SidecarFS :=
  exec.foldl (fun acc v => fs_write acc (out_key (metaOf v)) (metaOf v).id) fs

/-- Metadata of two distinct items whose titles sanitize to the same
directory segment on the same channel. -/
def clash_meta (v : String) : VideoMeta :=
  if v = "videoA" then ⟨"My Talk!", "videoA", "Chan", "urlA"⟩
  else ⟨"My Talk?", "videoB", "Chan", "urlB"⟩

/-- C5 counterexample: over the discovery videoA, videoB with an initially
empty root, the first run plans and completes both items, but their
common sanitized title makes the second write overwrite the first
sidecar, so the follow-up scan misses videoA and the second run plans
and returns one result instead of zero. -/
theorem spec_c5_counterexample :
    to_process (pending_ids ["videoA", "videoB"]
      (ledger_scan ([] : SidecarFS) "chan").toFinset) 0 =
      ["videoA", "videoB"] ∧
    (run_batch_writes ([] : SidecarFS) ["videoA", "videoB"] clash_meta).map
      (fun e => e.2) = ["videoB"] ∧
    pending_ids ["videoA", "videoB"]
      (ledger_scan (run_batch_writes ([] : SidecarFS) ["videoA", "videoB"]
        clash_meta) "chan").toFinset = ["videoA"] ∧
    (run_channel_mode ["videoA", "videoB"]
      (ledger_scan (run_batch_writes ([] : SidecarFS) ["videoA", "videoB"]
        clash_meta) "chan").toFinset 0 1
      (fun v => ⟨true, v, "", ""⟩) []).length = 1 :=
  ⟨by decide, by decide, by decide, by decide⟩

theorem to_process_zero (pending : List String) :
    to_process pending 0 = pending := by
  unfold to_process process_count
  rw [if_neg (by omega), List.take_length]

theorem mem_ledger_scan (fs : SidecarFS) (ch : String) (v : String) :
    v ∈ ledger_scan fs ch ↔ ∃ e, e ∈ fs ∧ e.1.1 = ch ∧ e.2 = v := by
  constructor
  · intro h
    rw [ledger_scan, List.mem_map] at h
    obtain ⟨e, he, hev⟩ := h
    rw [List.mem_filter] at he
    exact ⟨e, he.1, by simpa using he.2, hev⟩
  · intro ⟨e, he, hch, hev⟩
    rw [ledger_scan, List.mem_map]
    exact ⟨e, List.mem_filter.mpr ⟨he, by simpa using hch⟩, hev⟩

theorem run_batch_writes_preserve (metaOf : String → VideoMeta) :
    ∀ (exec : List String) (fs : SidecarFS) (e : (String × String) × String),
      e ∈ fs → (∀ w ∈ exec, out_key (metaOf w) ≠ e.1) →
      e ∈ run_batch_writes fs exec metaOf := by
  intro exec
  induction exec with
  | nil => intro fs e he _; exact he
  | cons w rest ih =>
    intro fs e he hk
    apply ih (fs_write fs (out_key (metaOf w)) (metaOf w).id) e
    · unfold fs_write
      apply List.mem_cons_of_mem
      apply List.mem_filter.mpr
      exact ⟨he, by simp [(hk w (List.mem_cons_self w rest)).symm]⟩
    · intro u hu
      exact hk u (List.mem_cons_of_mem w hu)

theorem run_batch_writes_mem (metaOf : String → VideoMeta) :
    ∀ (exec : List String) (fs : SidecarFS) (v : String),
      v ∈ exec → exec.Nodup →
      (∀ u ∈ exec, ∀ w ∈ exec, out_key (metaOf u) = out_key (metaOf w) → u = w) →
      (out_key (metaOf v), (metaOf v).id) ∈ run_batch_writes fs exec metaOf := by
  intro exec
  induction exec with
  | nil => intro fs v hv; cases hv
  | cons w rest ih =>
    intro fs v hv hnd hinj
    rcases List.mem_cons.mp hv with rfl | hv'
    · have hvnotin : v ∉ rest := (List.nodup_cons.mp hnd).1
      apply run_batch_writes_preserve metaOf rest
        (fs_write fs (out_key (metaOf v)) (metaOf v).id)
        (out_key (metaOf v), (metaOf v).id)
        (List.mem_cons_self _ _)
      intro u hu hequ
      apply hvnotin
      have huv := hinj u (List.mem_cons_of_mem _ hu) v (List.mem_cons_self _ _) hequ
      rwa [huv] at hu
    · exact ih (fs_write fs _ _) v hv' (List.nodup_cons.mp hnd).2
        (fun u hu x hx => hinj u (List.mem_cons_of_mem _ hu) x (List.mem_cons_of_mem _ hx))

/-- C5 amended: the double-run property holds once distinct items derive
distinct output locations. Over a duplicate-free discovery whose metadata
ids equal the discovered ids, whose items all resolve to the scanned
channel directory, whose output locations are pairwise distinct and
absent from the prior filesystem, an uncapped first run completing every
pending item in any order leaves a ledger whose scan covers every
discovered id, so the second run plans nothing and returns an empty
batch. -/
theorem spec_c5_idempotent_amended (all_ids : List String)
    (metaOf : String → VideoMeta) (ch : String) (fs0 : SidecarFS)
    (exec : List String) (amount2 workers2 : Nat)
    (proc : String → TranscribeResult) (completed : List String)
    (hD : all_ids.Nodup)
    (hid : ∀ v ∈ all_ids, (metaOf v).id = v)
    (hch : ∀ v ∈ all_ids, channel_dir (metaOf v).channel = ch)
    (hinj : ∀ v ∈ all_ids, ∀ w ∈ all_ids,
      out_key (metaOf v) = out_key (metaOf w) → v = w)
    (hfresh : ∀ v ∈ all_ids, ∀ e ∈ fs0, e.1 ≠ out_key (metaOf v))
    (hexec : exec.Perm (to_process (pending_ids all_ids
      (ledger_scan fs0 ch).toFinset) 0)) :
    pending_ids all_ids
      (ledger_scan (run_batch_writes fs0 exec metaOf) ch).toFinset = [] ∧
    run_channel_mode all_ids
      (ledger_scan (run_batch_writes fs0 exec metaOf) ch).toFinset
      amount2 workers2 proc completed = [] := by
  rw [to_process_zero] at hexec
  have hpendsub : ∀ v ∈ pending_ids all_ids (ledger_scan fs0 ch).toFinset,
      v ∈ all_ids := fun v hv => (List.mem_filter.mp hv).1
  have hexecsub : ∀ v ∈ exec, v ∈ all_ids :=
    fun v hv => hpendsub v (hexec.mem_iff.mp hv)
  have hexecnd : exec.Nodup := hexec.nodup_iff.mpr (List.Nodup.filter _ hD)
  have hmain : ∀ v ∈ all_ids,
      v ∈ ledger_scan (run_batch_writes fs0 exec metaOf) ch := by
    intro v hv
    by_cases hvp : v ∈ pending_ids all_ids (ledger_scan fs0 ch).toFinset
    · have hvex : v ∈ exec := hexec.mem_iff.mpr hvp
      have hentry := run_batch_writes_mem metaOf exec fs0 v hvex hexecnd
        (fun u hu w hw h => hinj u (hexecsub u hu) w (hexecsub w hw) h)
      rw [mem_ledger_scan]
      exact ⟨(out_key (metaOf v), (metaOf v).id), hentry, hch v hv, hid v hv⟩
    · have hvdone : v ∈ ledger_scan fs0 ch := by
        by_contra hnd
        exact hvp (List.mem_filter.mpr ⟨hv, by simpa using hnd⟩)
      rw [mem_ledger_scan] at hvdone
      obtain ⟨e, he, hech, hev⟩ := hvdone
      have hpres := run_batch_writes_preserve metaOf exec fs0 e he
        (fun w hw => (hfresh w (hexecsub w hw) e he).symm)
      rw [mem_ledger_scan]
      exact ⟨e, hpres, hech, hev⟩
  have h1 : pending_ids all_ids
      (ledger_scan (run_batch_writes fs0 exec metaOf) ch).toFinset = [] := by
    apply List.filter_eq_nil_iff.mpr
    intro a ha
    simp only [decide_eq_true_eq, not_not, List.mem_toFinset]
    exact hmain a ha
  refine ⟨h1, ?_⟩
  by_cases h0 : all_ids = [] <;> simp [run_channel_mode, h0, h1]

/-- Metadata of two items with distinct sanitized titles on one
channel. -/
def distinct_meta (v : String) : VideoMeta :=
  if v = "vidX" then ⟨"First Talk", "vidX", "Chan", "urlX"⟩
  else ⟨"Second Talk", "vidY", "Chan", "urlY"⟩

/-- Closed instance of the amended C5 theorem: two items with distinct
titles, processed in reversed completion order from an empty root, leave
nothing pending for the second run. -/
theorem spec_c5_idempotent_witness :
    pending_ids ["vidX", "vidY"]
      (ledger_scan (run_batch_writes ([] : SidecarFS) ["vidY", "vidX"]
        distinct_meta) "chan").toFinset = [] ∧
    run_channel_mode ["vidX", "vidY"]
      (ledger_scan (run_batch_writes ([] : SidecarFS) ["vidY", "vidX"]
        distinct_meta) "chan").toFinset 0 3
      (fun v => ⟨true, v, "", ""⟩) [] = [] :=
  spec_c5_idempotent_amended ["vidX", "vidY"] distinct_meta "chan" []
    ["vidY", "vidX"] 0 3 (fun v => ⟨true, v, "", ""⟩) [] (by decide)
    (by decide) (by decide) (by decide) (by decide) (by decide)

end YtTranscribe
